import Mathlib

/-!
# Verification of the football video-analysis core

Shallow embedding of the tracking-and-possession core of the repository
(`src/tracking/tracker.py`, `src/pipeline/pipeline.py`,
`src/analytics/possession.py`) together with proofs of the specified
properties.

Modelling conventions:

* Pixel coordinates and scores are rationals (`ℚ`), the exact-real reading
  of the Python floats; claims under verification do not hinge on binary
  floating-point rounding.
* Python `int(x)` (truncation toward zero) is `pyInt`; the spec's `round`
  (Python banker's rounding) is `pyRound`.
* `math.hypot` produces a square root that the source only ever uses inside
  comparisons (or inside further comparisons of affine images).  Those
  comparisons are decided exactly on the squared quantities by `sqrtGtAux` /
  `sqrtLeB`; the lemmas `sqrtGtAux_correct` and `sqrtLeB_correct` prove that
  the decision procedures agree with the real-valued comparisons of the
  source, so the embedding is faithful while staying executable.
* Python `dict` is an insertion-ordered association list: updating an
  existing key keeps its position, a new key is appended at the end.
-/

namespace FV


/-- A bounding box `(x1, y1, x2, y2)` in pixel coordinates. -/
abbrev Box := ℚ × ℚ × ℚ × ℚ

/-- Python `int(x)`: truncation toward zero. -/
def pyInt (q : ℚ) : ℤ := if 0 ≤ q then ⌊q⌋ else ⌈q⌉

/-- Python `round(x)`: round half to even (banker's rounding).  Used only to
state the spec's (erroneous) `round` formula; the source uses `int`. -/
def pyRound (q : ℚ) : ℤ :=
  let f : ℤ := ⌊q⌋
  if q - f < 1/2 then f
  else if (1/2 : ℚ) < q - f then f + 1
  else if f % 2 = 0 then f else f + 1

/-- Decides `Real.sqrt y + c < Real.sqrt x` for rationals `x y c` with
`0 ≤ x`, `0 ≤ y`, using only rational arithmetic. -/
def sqrtGtAux (x y c : ℚ) : Bool :=
  if c < 0 ∧ y < c ^ 2 then true
  else
    let L : ℚ := x - y - c ^ 2
    if 0 ≤ c then decide (0 < L ∧ 4 * c ^ 2 * y < L ^ 2)
    else decide (0 ≤ L ∨ L ^ 2 < 4 * c ^ 2 * y)

/-- Decides `Real.sqrt d ≤ m` for rationals `0 ≤ d`, any `m`. -/
def sqrtLeB (d m : ℚ) : Bool :=
  if m < 0 then false else decide (d ≤ m ^ 2)

/-! ## Ball selector — `Pipeline._select_ball` (src/pipeline/pipeline.py) -/

/-- A raw YOLO ball candidate `(x1, y1, x2, y2, score)`. -/
structure Cand where
  x1 : ℚ
  y1 : ℚ
  x2 : ℚ
  y2 : ℚ
  score : ℚ
deriving DecidableEq

/-- The integer-truncated box of a candidate as rationals — the source's
`map(int, (x1, y1, x2, y2))` followed by `float(...)` on the winner. -/
def candIntBoxQ (c : Cand) : Box :=
  ((pyInt c.x1 : ℚ), (pyInt c.y1 : ℚ), (pyInt c.x2 : ℚ), (pyInt c.y2 : ℚ))

/-- Geometric plausibility filter of `_select_ball`, applied to the
integer-truncated coordinates exactly as the source does
(`0.02 = 1/50`, `0.20 = 1/5`, aspect bounds `0.5 = 1/2`, `1.8 = 9/5`). -/
def ballFilterOk (hFrame wFrame : ℚ) (c : Cand) : Bool :=
  let x1 := pyInt c.x1
  let y1 := pyInt c.y1
  let x2 := pyInt c.x2
  let y2 := pyInt c.y2
  let w := x2 - x1
  let h := y2 - y1
  if w ≤ 0 ∨ h ≤ 0 then false
  else if w * h < 4 ∨ ((w * h : ℤ) : ℚ) > 1/50 * wFrame * hFrame then false
  else if ((w : ℚ) / (h : ℚ)) < 1/2 ∨ ((w : ℚ) / (h : ℚ)) > 9/5 then false
  else if ((y2 : ℤ) : ℚ) < 1/5 * hFrame then false
  else true

/-- The candidate loop of `_select_ball`: accumulator is
`(best, best_score)`, starting from `(None, -1.0)`; a candidate replaces the
accumulator iff it passes the filter and its score strictly exceeds
`best_score`. -/
def selectBallLoop (hFrame wFrame : ℚ) :
    List Cand → Option Box × ℚ → Option Box × ℚ
  | [], acc => acc
  | c :: rest, (best, bestScore) =>
      if ballFilterOk hFrame wFrame c ∧ bestScore < c.score then
        selectBallLoop hFrame wFrame rest (some (candIntBoxQ c), c.score)
      else
        selectBallLoop hFrame wFrame rest (best, bestScore)

/-- `Pipeline._select_ball` (the early return on an empty candidate list
coincides with the loop's result). -/
def selectBall (hFrame wFrame : ℚ) (cands : List Cand) : Option Box :=
  (selectBallLoop hFrame wFrame cands (none, -1)).1

/-- One step of the spec-side selection: keep the first-seen candidate with
the strictly greatest score. -/
def specBallStep (acc : Option Cand) (c : Cand) : Option Cand :=
  match acc with
  | none => some c
  | some b => if b.score < c.score then some c else acc

/-- Spec-side selection (§4.2): filter the candidates, then among the
survivors pick the one with the highest confidence score, ties broken by
first-seen order; absent if no candidate survives. -/
def selectBallSpec (hFrame wFrame : ℚ) (cands : List Cand) : Option Box :=
  ((cands.filter (fun c => ballFilterOk hFrame wFrame c)).foldl
    specBallStep none).map candIntBoxQ

/-! ## Ball smoother — `Pipeline._update_ball_smoothing` -/

/-- `self.max_ball_history = 5`. -/
def maxBallHistory : ℕ := 5

/-- Ball smoothing state: `self.ball_history`, `self.smoothed_ball`. -/
structure BallSmooth where
  ball_history : List (Option Box)
  smoothed_ball : Option Box
deriving DecidableEq

/-- Initial smoothing state set up in `Pipeline.__init__`. -/
def ballSmoothInit : BallSmooth := ⟨[], none⟩

/-- Append the new observation; `pop(0)` once if over capacity. -/
def pushHist (l : List (Option Box)) (x : Option Box) : List (Option Box) :=
  if maxBallHistory < (l ++ [x]).length then (l ++ [x]).drop 1 else l ++ [x]

/-- Number of trailing consecutive `None` entries, counted from the most
recent entry. -/
def countTrailingNone (l : List (Option Box)) : ℕ :=
  (l.reverse.takeWhile (fun b => b.isNone)).length

/-- Average center/size of the valid boxes and reconstruct a box
(the non-empty `valid_boxes` branch of the source). -/
def smoothFrom (valid : List Box) : Box :=
  let n : ℚ := valid.length
  let avgCx := (valid.map (fun b => (b.1 + b.2.2.1) / 2)).sum / n
  let avgCy := (valid.map (fun b => (b.2.1 + b.2.2.2) / 2)).sum / n
  let avgW := (valid.map (fun b => b.2.2.1 - b.1)).sum / n
  let avgH := (valid.map (fun b => b.2.2.2 - b.2.1)).sum / n
  (avgCx - avgW / 2, avgCy - avgH / 2, avgCx + avgW / 2, avgCy + avgH / 2)

/-- `Pipeline._update_ball_smoothing`: push the raw observation, clear the
smoothed ball after ≥ 3 trailing misses, keep the previous smoothed ball if
no valid entry remains, otherwise average the valid entries. -/
def updateBallSmoothing (raw : Option Box) (s : BallSmooth) : BallSmooth :=
  if 3 ≤ countTrailingNone (pushHist s.ball_history raw) then
    ⟨pushHist s.ball_history raw, none⟩
  else if (pushHist s.ball_history raw).filterMap id = [] then
    ⟨pushHist s.ball_history raw, s.smoothed_ball⟩
  else
    ⟨pushHist s.ball_history raw,
      some (smoothFrom ((pushHist s.ball_history raw).filterMap id))⟩

/-- Feed a whole sequence of raw observations from the initial state. -/
def feedBall (prior : List (Option Box)) : BallSmooth :=
  prior.foldl (fun st raw => updateBallSmoothing raw st) ballSmoothInit

/-- The spec's test box `(0, 0, 10, 10)`. -/
def ballBoxTen : Box := (0, 0, 10, 10)

/-! ## Centroid tracker — `SimpleTracker` (src/tracking/tracker.py) -/

/-- `SimpleTracker` state: `max_distance`, `next_id`, `tracks` (dict
id ↦ centroid, insertion-ordered), `history` (defaultdict id ↦ list of
`(frame_idx, cx, cy)`). -/
structure TrackerState where
  max_distance : ℚ
  next_id : ℕ
  tracks : List (ℕ × (ℚ × ℚ))
  history : List (ℕ × List (ℤ × ℚ × ℚ))
deriving DecidableEq

/-- `SimpleTracker.__init__`. -/
def trackerInit (m : ℚ) : TrackerState := ⟨m, 1, [], []⟩

/-- `SimpleTracker._centroid`. -/
def centroid (b : Box) : ℚ × ℚ := ((b.1 + b.2.2.1) / 2, (b.2.1 + b.2.2.2) / 2)

/-- Squared Euclidean distance (`math.hypot` squared; the source only
compares distances, which is equivalent on the squares by `sqrtLeB_correct`
and monotonicity). -/
def distSq (p q : ℚ × ℚ) : ℚ := (p.1 - q.1) ^ 2 + (p.2 - q.2) ^ 2

/-- Python dict update `d[k] = v`: replace in place, else append. -/
def dictSet {α : Type} (l : List (ℕ × α)) (k : ℕ) (v : α) : List (ℕ × α) :=
  if l.any (fun e => e.1 == k) then
    l.map (fun e => if e.1 = k then (k, v) else e)
  else l ++ [(k, v)]

/-- `defaultdict(list)` append: `history[k].append(e)`. -/
def histAppend (l : List (ℕ × List (ℤ × ℚ × ℚ))) (k : ℕ) (e : ℤ × ℚ × ℚ) :
    List (ℕ × List (ℤ × ℚ × ℚ)) :=
  if l.any (fun en => en.1 == k) then
    l.map (fun en => if en.1 = k then (k, en.2 ++ [e]) else en)
  else l ++ [(k, [e])]

/-- `True` when the candidate distance improves on the best one so far
(`best_dist` starts at `inf`, encoded as `none`). -/
def betterDist (acc : Option (ℕ × ℚ)) (d2 : ℚ) : Bool :=
  match acc with
  | none => true
  | some a => decide (d2 < a.2)

/-- One iteration of the nearest-track search (`dist < best_dist and
dist <= max_distance`). -/
def findBestStep (m : ℚ) (c : ℚ × ℚ) (acc : Option (ℕ × ℚ))
    (e : ℕ × (ℚ × ℚ)) : Option (ℕ × ℚ) :=
  if betterDist acc (distSq c e.2) && sqrtLeB (distSq c e.2) m then
    some (e.1, distSq c e.2)
  else acc

/-- The nearest-track search of the matching loop: fold over the stored
tracks in insertion order, keeping the first track attaining the strictly
smallest distance among those within `max_distance`. -/
def findBest (m : ℚ) (c : ℚ × ℚ) (tracks : List (ℕ × (ℚ × ℚ))) :
    Option (ℕ × ℚ) :=
  tracks.foldl (findBestStep m c) none

/-- Loop body of the matching branch of `SimpleTracker.update`: process one
detection against the current store. -/
def trackStep (s : TrackerState) (fidx : ℤ) (b : Box) :
    TrackerState × (ℕ × Box) :=
  match findBest s.max_distance (centroid b) s.tracks with
  | some (tid, _) =>
      (⟨s.max_distance, s.next_id, dictSet s.tracks tid (centroid b),
        histAppend s.history tid (fidx, centroid b)⟩, (tid, b))
  | none =>
      (⟨s.max_distance, s.next_id + 1, dictSet s.tracks s.next_id (centroid b),
        histAppend s.history s.next_id (fidx, centroid b)⟩, (s.next_id, b))

/-- The matching loop over all detections (sequential, order-dependent). -/
def trackLoop (s : TrackerState) (fidx : ℤ) :
    List Box → TrackerState × List (ℕ × Box)
  | [] => (s, [])
  | b :: rest =>
      let p := trackStep s fidx b
      let q := trackLoop p.1 fidx rest
      (q.1, p.2 :: q.2)

/-- The empty-store branch of `SimpleTracker.update`: assign fresh ids to
all detections in input order. -/
def assignAll (s : TrackerState) (fidx : ℤ) :
    List Box → TrackerState × List (ℕ × Box)
  | [] => (s, [])
  | b :: rest =>
      let c := centroid b
      let s1 : TrackerState := ⟨s.max_distance, s.next_id + 1,
        dictSet s.tracks s.next_id c, histAppend s.history s.next_id (fidx, c)⟩
      let q := assignAll s1 fidx rest
      (q.1, (s.next_id, b) :: q.2)

/-- `SimpleTracker.update`. -/
def trackerUpdate (s : TrackerState) (detections : List Box) (fidx : ℤ) :
    TrackerState × List (ℕ × Box) :=
  if s.tracks = [] then assignAll s fidx detections
  else trackLoop s fidx detections

/-- Tracker states reachable in a session. -/
inductive TrackerReachable : TrackerState → Prop
  | init : ∀ m, TrackerReachable (trackerInit m)
  | step : ∀ s dets fidx, TrackerReachable s →
      TrackerReachable (trackerUpdate s dets fidx).1

/-- Session invariant: every stored track id is below `next_id`.  Because
tracks are never removed, the stored ids are exactly the ids minted so far. -/
def TrackerInv (s : TrackerState) : Prop :=
  ∀ tid ∈ s.tracks.map Prod.fst, tid < s.next_id

/-! ## Possession tracker — `PossessionTracker` (src/analytics/possession.py)

Scores are represented by pairs `(m, d2) : ℚ × ℚ` denoting the real value
`1 + m - sqrt d2 / radius` (that is, `dist_score + motion_score` with
`dist_score = (radius - dist) / radius` and motion bonus `m ∈ {0, 0.3}`).
The initial `best_score = 0.0` is the pair `(-1, 0)` and the threshold
`0.25` is the pair `(-3/4, 0)`.  `scoreGtB` compares two such pairs
exactly (`scoreGtB_correct`), and `sqrtGtAux d2 0 r` decides the
`dist > radius` gate. -/

/-- `PossessionTracker` mutable state.  `global_counts` is the `Counter`
(absent key ↦ 0). -/
structure PossState where
  radius : ℚ
  fps : ℚ
  window_frames : ℕ
  memory_frames : ℕ
  recent_winners : List (Option String)
  global_counts : String → ℕ
  total_ball_frames : ℕ
  prev_player_centers : List (ℕ × (ℚ × ℚ))
  last_team : Option String
  last_team_memory_left : ℕ

/-- `PossessionTracker.__init__`: `window_frames = max(1, int(ws * fps))`,
`memory_frames = max(1, int(ms * fps))`, empty window, empty counters. -/
def possessionInit (fps radius window_seconds memory_seconds : ℚ) : PossState :=
  ⟨radius, fps,
    (max 1 (pyInt (window_seconds * fps))).toNat,
    (max 1 (pyInt (memory_seconds * fps))).toNat,
    [], fun _ => 0, 0, [], none, 0⟩

/-- `_player_centers`: build the dict of per-track centroids in order. -/
def playerCenters (tracks : List (ℕ × Box)) : List (ℕ × (ℚ × ℚ)) :=
  tracks.foldl (fun m e => dictSet m e.1 (centroid e.2)) []

/-- Dict lookup (`d.get(k)`). -/
def dictGet (l : List (ℕ × (ℚ × ℚ))) (k : ℕ) : Option (ℚ × ℚ) :=
  (l.find? (fun e => e.1 == k)).map Prod.snd

/-- Per-track velocity against the previous frame's centers
(`(0, 0)` for a track that is new this frame). -/
def velocity (prev : List (ℕ × (ℚ × ℚ))) (tid : ℕ) (c : ℚ × ℚ) : ℚ × ℚ :=
  match dictGet prev tid with
  | some p => (c.1 - p.1, c.2 - p.2)
  | none => (0, 0)

/-- Score comparison `val p > val q` where `(m, d2)` denotes
`1 + m - sqrt d2 / r`. -/
def scoreGtB (r : ℚ) (p q : ℚ × ℚ) : Bool :=
  sqrtGtAux q.2 p.2 (r * (q.1 - p.1))

/-- The pair denoting the loop's initial `best_score = 0.0`. -/
def scoreInit : ℚ × ℚ := (-1, 0)

/-- The pair denoting the direct-control threshold `0.25`. -/
def threshPair : ℚ × ℚ := (-3/4, 0)

/-- One candidate of the scoring loop: skip unless the team is A or B, skip
if the player is farther than `radius` from the ball, give the `0.3` motion
bonus on a strictly positive velocity·to-ball dot product, and replace the
accumulator iff the score strictly exceeds the best so far. -/
def scoreCand (r : ℚ) (prev : List (ℕ × (ℚ × ℚ))) (teamOf : ℕ → Option String)
    (bc : ℚ × ℚ) (acc : Option String × (ℚ × ℚ)) (e : ℕ × (ℚ × ℚ)) :
    Option String × (ℚ × ℚ) :=
  match teamOf e.1 with
  | none => acc
  | some team =>
      if team = "A" ∨ team = "B" then
        if sqrtGtAux (distSq bc e.2) 0 r then acc
        else
          let v := velocity prev e.1 e.2
          let m : ℚ := if 0 < v.1 * (bc.1 - e.2.1) + v.2 * (bc.2 - e.2.2)
            then 3/10 else 0
          if scoreGtB r (m, distSq bc e.2) acc.2 then (some team, (m, distSq bc e.2))
          else acc
      else acc

/-- The scoring loop over the player-centers dict, in insertion order. -/
def scoreLoop (r : ℚ) (prev : List (ℕ × (ℚ × ℚ))) (teamOf : ℕ → Option String)
    (bc : ℚ × ℚ) : List (ℕ × (ℚ × ℚ)) → Option String × (ℚ × ℚ) →
      Option String × (ℚ × ℚ)
  | [], acc => acc
  | e :: rest, acc => scoreLoop r prev teamOf bc rest (scoreCand r prev teamOf bc acc e)

/-- The direct-observation phase of `PossessionTracker.update`: `some team`
iff the ball is visible, some candidate won the loop, and the best score
reaches the `0.25` threshold (`observed_directly` with its winner). -/
def directWinner (st : PossState) (tracks : List (ℕ × Box))
    (teamOf : ℕ → Option String) (ball : Option Box) : Option String :=
  match ball with
  | none => none
  | some bb =>
      match scoreLoop st.radius st.prev_player_centers teamOf (centroid bb)
          (playerCenters tracks) (none, scoreInit) with
      | (none, _) => none
      | (some team, best) =>
          if ¬ scoreGtB st.radius threshPair best then some team else none

/-- Append to the `deque(maxlen = maxlen)` window: oldest entries drop. -/
def pushWinner (l : List (Option String)) (w : Option String) (maxlen : ℕ) :
    List (Option String) :=
  if maxlen < (l ++ [w]).length then
    (l ++ [w]).drop ((l ++ [w]).length - maxlen)
  else l ++ [w]

/-- State transition of `update` after the direct-observation phase, given
the new centers and the direct winner: memory branch when there is none,
memory reset, window append and global-stats increment when there is one. -/
def applyWinner (st : PossState) (centers : List (ℕ × (ℚ × ℚ))) :
    Option String → PossState
  | some t =>
      if t = "A" ∨ t = "B" then
        { st with
          recent_winners := pushWinner st.recent_winners (some t) st.window_frames,
          prev_player_centers := centers,
          last_team := some t,
          last_team_memory_left := st.memory_frames,
          global_counts := fun k =>
            if k = t then st.global_counts k + 1 else st.global_counts k,
          total_ball_frames := st.total_ball_frames + 1 }
      else
        { st with
          recent_winners := pushWinner st.recent_winners (some t) st.window_frames,
          prev_player_centers := centers }
  | none =>
      if 0 < st.last_team_memory_left ∧
          (st.last_team = some "A" ∨ st.last_team = some "B") then
        { st with
          recent_winners := pushWinner st.recent_winners st.last_team st.window_frames,
          prev_player_centers := centers,
          last_team_memory_left := st.last_team_memory_left - 1 }
      else
        { st with
          recent_winners := pushWinner st.recent_winners none st.window_frames,
          prev_player_centers := centers }

/-- `PossessionTracker.update`: direct winner, else memory fallback; memory
reset and global-stats increment only on a direct observation; previous
centers overwritten every frame. -/
def possessionUpdate (st : PossState) (tracks : List (ℕ × Box))
    (teamOf : ℕ → Option String) (ball : Option Box) : PossState :=
  applyWinner st (playerCenters tracks) (directWinner st tracks teamOf ball)

/-- `_window_percentages` (counts of A and B over the window). -/
def windowCountA (st : PossState) : ℕ :=
  st.recent_winners.countP (fun w => w == some "A")

def windowCountB (st : PossState) : ℕ :=
  st.recent_winners.countP (fun w => w == some "B")

def windowPercentages (st : PossState) : ℚ × ℚ :=
  if windowCountA st + windowCountB st = 0 then (0, 0)
  else (100 * windowCountA st / (windowCountA st + windowCountB st),
        100 * windowCountB st / (windowCountA st + windowCountB st))

/-- `_global_percentages`. -/
def globalPercentages (st : PossState) : ℚ × ℚ :=
  if st.total_ball_frames = 0 then (0, 0)
  else (100 * st.global_counts "A" / st.total_ball_frames,
        100 * st.global_counts "B" / st.total_ball_frames)

/-- `get_percentages`: window percentages, global fallback when the window
holds no information. -/
def getPercentages (st : PossState) : ℚ × ℚ :=
  if (windowPercentages st).1 + (windowPercentages st).2 = 0 then
    globalPercentages st
  else windowPercentages st

/-- Possession states reachable from a freshly constructed tracker by any
sequence of updates. -/
inductive PossReachable : PossState → Prop
  | init : ∀ fps radius ws ms, PossReachable (possessionInit fps radius ws ms)
  | step : ∀ st tracks teamOf ball, PossReachable st →
      PossReachable (possessionUpdate st tracks teamOf ball)

/-- The state after `n` updates driven by the input sequence `seq`. -/
def possStates (s0 : PossState)
    (seq : ℕ → List (ℕ × Box) × (ℕ → Option String) × Option Box) :
    ℕ → PossState
  | 0 => s0
  | n + 1 =>
      possessionUpdate (possStates s0 seq n) (seq n).1 (seq n).2.1 (seq n).2.2

/-- The counter invariant: `total_ball_frames` is the sum of the A and B
counts, and no other key is ever counted. -/
def PossInv (st : PossState) : Prop :=
  st.total_ball_frames = st.global_counts "A" + st.global_counts "B" ∧
    ∀ k, k ≠ "A" → k ≠ "B" → st.global_counts k = 0

/-- A frame scenario with a clear direct A win: one tracked player of team A
standing on the ball. -/
def cWinTracks : List (ℕ × Box) := [(1, (80, 80, 120, 120))]

def cWinTeam : ℕ → Option String := fun n => if n = 1 then some "A" else none

def cWinBall : Option Box := some (90, 90, 110, 110)

/-- A tracker with `fps = 2`, hence `memory_frames = max(1, int(0.5*2)) = 1`
and `window_frames = max(1, int(3*2)) = 6`. -/
def cS0 : PossState := possessionInit 2 60 3 (1/2)

/-- The input sequence: the direct A win at frame 0, then empty frames with
no ball. -/
def cSeq : ℕ → List (ℕ × Box) × (ℕ → Option String) × Option Box :=
  fun i => if i = 0 then (cWinTracks, cWinTeam, cWinBall) else
    ([], fun _ => none, none)

/-- `sqrtGtAux` decides exactly the real comparison `sqrt y + c < sqrt x`. -/
theorem sqrtGtAux_correct (x y c : ℚ) (hx : 0 ≤ x) (hy : 0 ≤ y) :
    sqrtGtAux x y c = true ↔
      Real.sqrt (y : ℝ) + (c : ℝ) < Real.sqrt (x : ℝ) := by
  have hxR : (0 : ℝ) ≤ (x : ℝ) := by exact_mod_cast hx
  have hyR : (0 : ℝ) ≤ (y : ℝ) := by exact_mod_cast hy
  have hsx : 0 ≤ Real.sqrt (x : ℝ) := Real.sqrt_nonneg _
  have hsy : 0 ≤ Real.sqrt (y : ℝ) := Real.sqrt_nonneg _
  have hsysq : Real.sqrt (y : ℝ) ^ 2 = (y : ℝ) := Real.sq_sqrt hyR
  have hsxsq : Real.sqrt (x : ℝ) ^ 2 = (x : ℝ) := Real.sq_sqrt hxR
  unfold sqrtGtAux
  by_cases h1 : c < 0 ∧ y < c ^ 2
  · rw [if_pos h1]
    have hcR : (c : ℝ) < 0 := by exact_mod_cast h1.1
    have hyc : (y : ℝ) < (c : ℝ) ^ 2 := by exact_mod_cast h1.2
    have hlt : Real.sqrt (y : ℝ) < -(c : ℝ) := by
      have h2 : Real.sqrt (y : ℝ) < Real.sqrt ((c : ℝ) ^ 2) :=
        Real.sqrt_lt_sqrt hyR hyc
      have h3 : Real.sqrt ((c : ℝ) ^ 2) = |(c : ℝ)| := Real.sqrt_sq_eq_abs _
      rw [h3, abs_of_neg hcR] at h2
      exact h2
    constructor
    · intro _
      linarith
    · intro _
      rfl
  · rw [if_neg h1]
    -- here sqrt y + c ≥ 0
    have hyc0 : 0 ≤ Real.sqrt (y : ℝ) + (c : ℝ) := by
      by_cases hc : 0 ≤ c
      · have : (0 : ℝ) ≤ (c : ℝ) := by exact_mod_cast hc
        linarith
      · push_neg at hc
        have h2 : c ^ 2 ≤ y := by
          rcases not_and_or.mp h1 with h | h
          · exact absurd hc (by simpa using h)
          · exact not_lt.mp h
        have h2R : ((c : ℝ)) ^ 2 ≤ (y : ℝ) := by exact_mod_cast h2
        have : -(c : ℝ) ≤ Real.sqrt (y : ℝ) := by
          have h3 : Real.sqrt ((c : ℝ) ^ 2) ≤ Real.sqrt (y : ℝ) :=
            Real.sqrt_le_sqrt h2R
          have h4 : Real.sqrt ((c : ℝ) ^ 2) = |(c : ℝ)| := Real.sqrt_sq_eq_abs _
          have hcR : (c : ℝ) < 0 := by exact_mod_cast hc
          rw [h4, abs_of_neg hcR] at h3
          exact h3
        linarith
    -- the comparison is equivalent to a comparison of squares
    have key : (Real.sqrt (y : ℝ) + (c : ℝ) < Real.sqrt (x : ℝ)) ↔
        2 * (c : ℝ) * Real.sqrt (y : ℝ) < ((x : ℝ) - (y : ℝ) - (c : ℝ) ^ 2) := by
      constructor
      · intro h
        have hsq : (Real.sqrt (y : ℝ) + (c : ℝ)) ^ 2 < Real.sqrt (x : ℝ) ^ 2 := by
          have := mul_self_lt_mul_self hyc0 h
          simpa [pow_two] using this
        rw [hsxsq] at hsq
        nlinarith [hsysq]
      · intro h
        have hsq : (Real.sqrt (y : ℝ) + (c : ℝ)) ^ 2 < (x : ℝ) := by
          nlinarith [hsysq]
        have h5 : (Real.sqrt (y : ℝ) + (c : ℝ)) ^ 2 < Real.sqrt (x : ℝ) ^ 2 := by
          rw [hsxsq]; exact hsq
        nlinarith [hsx, hyc0]
    rw [key]
    by_cases hc : 0 ≤ c
    · rw [if_pos hc]
      simp only [decide_eq_true_eq]
      have hcR : (0 : ℝ) ≤ (c : ℝ) := by exact_mod_cast hc
      have hRnn : 0 ≤ 2 * (c : ℝ) * Real.sqrt (y : ℝ) :=
        mul_nonneg (by linarith) hsy
      have hRsq : (2 * (c : ℝ) * Real.sqrt (y : ℝ)) ^ 2 = 4 * (c : ℝ) ^ 2 * (y : ℝ) := by
        nlinarith [hsysq]
      constructor
      · rintro ⟨hL, hLsq⟩
        have hLR : (0 : ℝ) < ((x : ℝ) - (y : ℝ) - (c : ℝ) ^ 2) := by exact_mod_cast hL
        have hLsqR : 4 * (c : ℝ) ^ 2 * (y : ℝ) <
            ((x : ℝ) - (y : ℝ) - (c : ℝ) ^ 2) ^ 2 := by exact_mod_cast hLsq
        nlinarith [hRnn, hRsq]
      · intro h
        have hLR : (0 : ℝ) < ((x : ℝ) - (y : ℝ) - (c : ℝ) ^ 2) := lt_of_le_of_lt hRnn h
        constructor
        · exact_mod_cast hLR
        · have : 4 * (c : ℝ) ^ 2 * (y : ℝ) <
              ((x : ℝ) - (y : ℝ) - (c : ℝ) ^ 2) ^ 2 := by
            nlinarith [hRnn, hRsq]
          exact_mod_cast this
    · rw [if_neg hc]
      simp only [decide_eq_true_eq]
      push_neg at hc
      have hcR : (c : ℝ) < 0 := by exact_mod_cast hc
      have h2 : c ^ 2 ≤ y := by
        rcases not_and_or.mp h1 with h | h
        · exact absurd hc (by simpa using h)
        · exact not_lt.mp h
      have hypos : (0 : ℝ) < (y : ℝ) := by
        have : (0 : ℚ) < c ^ 2 := by nlinarith
        have : (0 : ℚ) < y := lt_of_lt_of_le this h2
        exact_mod_cast this
      have hsypos : 0 < Real.sqrt (y : ℝ) := Real.sqrt_pos.mpr hypos
      have hRneg : 2 * (c : ℝ) * Real.sqrt (y : ℝ) < 0 := by
        have := mul_pos (by linarith : (0:ℝ) < -(2 * (c : ℝ))) hsypos
        nlinarith
      have hRsq : (2 * (c : ℝ) * Real.sqrt (y : ℝ)) ^ 2 = 4 * (c : ℝ) ^ 2 * (y : ℝ) := by
        nlinarith [hsysq]
      constructor
      · rintro (hL | hLsq)
        · have : (0 : ℝ) ≤ ((x : ℝ) - (y : ℝ) - (c : ℝ) ^ 2) := by exact_mod_cast hL
          linarith
        · have hLsqR : ((x : ℝ) - (y : ℝ) - (c : ℝ) ^ 2) ^ 2 <
              4 * (c : ℝ) ^ 2 * (y : ℝ) := by exact_mod_cast hLsq
          nlinarith [hRneg, hRsq]
      · intro h
        by_cases hL : (0 : ℚ) ≤ x - y - c ^ 2
        · exact Or.inl hL
        · right
          push_neg at hL
          have hLR : ((x : ℝ) - (y : ℝ) - (c : ℝ) ^ 2) < 0 := by exact_mod_cast hL
          have : ((x : ℝ) - (y : ℝ) - (c : ℝ) ^ 2) ^ 2 <
              4 * (c : ℝ) ^ 2 * (y : ℝ) := by
            nlinarith [hRneg, hRsq]
          exact_mod_cast this

/-- `sqrtLeB` decides exactly the real comparison `sqrt d ≤ m`. -/
theorem sqrtLeB_correct (d m : ℚ) (hd : 0 ≤ d) :
    sqrtLeB d m = true ↔ Real.sqrt (d : ℝ) ≤ (m : ℝ) := by
  unfold sqrtLeB
  by_cases hm : m < 0
  · rw [if_pos hm]
    simp only [Bool.false_eq_true, false_iff, not_le]
    have : (m : ℝ) < 0 := by exact_mod_cast hm
    exact lt_of_lt_of_le this (Real.sqrt_nonneg _)
  · rw [if_neg hm]
    simp only [decide_eq_true_eq]
    push_neg at hm
    have hmR : (0 : ℝ) ≤ (m : ℝ) := by exact_mod_cast hm
    have hdR : (0 : ℝ) ≤ (d : ℝ) := by exact_mod_cast hd
    constructor
    · intro h
      have hR : (d : ℝ) ≤ (m : ℝ) ^ 2 := by exact_mod_cast h
      calc Real.sqrt (d : ℝ) ≤ Real.sqrt ((m : ℝ) ^ 2) := Real.sqrt_le_sqrt hR
        _ = |(m : ℝ)| := Real.sqrt_sq_eq_abs _
        _ = (m : ℝ) := abs_of_nonneg hmR
    · intro h
      have : (d : ℝ) ≤ (m : ℝ) ^ 2 := by
        have := Real.sq_sqrt hdR
        nlinarith [Real.sqrt_nonneg (d : ℝ)]
      exact_mod_cast this

/-! ### Ball selector lemmas -/

theorem selectBallLoop_cons_true (hF wF : ℚ) (c : Cand) (rest : List Cand)
    (best : Option Box) (bs : ℚ)
    (h : ballFilterOk hF wF c = true ∧ bs < c.score) :
    selectBallLoop hF wF (c :: rest) (best, bs) =
      selectBallLoop hF wF rest (some (candIntBoxQ c), c.score) := by
  simp only [selectBallLoop, if_pos h]

theorem selectBallLoop_cons_false (hF wF : ℚ) (c : Cand) (rest : List Cand)
    (best : Option Box) (bs : ℚ)
    (h : ¬(ballFilterOk hF wF c = true ∧ bs < c.score)) :
    selectBallLoop hF wF (c :: rest) (best, bs) =
      selectBallLoop hF wF rest (best, bs) := by
  simp only [selectBallLoop, if_neg h]

/-- The source loop agrees with the spec-side filter-then-argmax fold, given
that every candidate score exceeds the loop's `-1.0` sentinel, for every
pair of related accumulators. -/
theorem selectBallLoop_agrees (hF wF : ℚ) :
    ∀ (cands : List Cand) (p : Option Box × ℚ) (a : Option Cand),
      (∀ c ∈ cands, (-1 : ℚ) < c.score) →
      ((p = (none, -1) ∧ a = none) ∨
        ∃ b, a = some b ∧ p = (some (candIntBoxQ b), b.score)) →
      (selectBallLoop hF wF cands p).1 =
        ((cands.filter (fun c => ballFilterOk hF wF c)).foldl specBallStep a).map
          candIntBoxQ := by
  intro cands
  induction cands with
  | nil =>
    rintro p a _ (⟨rfl, rfl⟩ | ⟨b, rfl, rfl⟩) <;> simp [selectBallLoop]
  | cons c rest ih =>
    rintro p a hs hrel
    have hs' : ∀ x ∈ rest, (-1 : ℚ) < x.score := fun x hx =>
      hs x (List.mem_cons_of_mem _ hx)
    have hsc : (-1 : ℚ) < c.score := hs c (List.mem_cons_self _ _)
    by_cases hf : ballFilterOk hF wF c = true
    · have hfilter : (c :: rest).filter (fun x => ballFilterOk hF wF x) =
          c :: rest.filter (fun x => ballFilterOk hF wF x) :=
        List.filter_cons_of_pos hf
      rcases hrel with ⟨rfl, rfl⟩ | ⟨b, rfl, rfl⟩
      · rw [selectBallLoop_cons_true hF wF c rest none (-1) ⟨hf, hsc⟩, hfilter,
          List.foldl_cons]
        exact ih _ (some c) hs' (Or.inr ⟨c, rfl, rfl⟩)
      · by_cases hcmp : b.score < c.score
        · rw [selectBallLoop_cons_true hF wF c rest _ _ ⟨hf, hcmp⟩, hfilter,
            List.foldl_cons]
          have hstep : specBallStep (some b) c = some c := by
            simp [specBallStep, hcmp]
          rw [hstep]
          exact ih _ (some c) hs' (Or.inr ⟨c, rfl, rfl⟩)
        · rw [selectBallLoop_cons_false hF wF c rest _ _ (by tauto), hfilter,
            List.foldl_cons]
          have hstep : specBallStep (some b) c = some b := by
            simp [specBallStep, hcmp]
          rw [hstep]
          exact ih _ (some b) hs' (Or.inr ⟨b, rfl, rfl⟩)
    · have hfilter : (c :: rest).filter (fun x => ballFilterOk hF wF x) =
          rest.filter (fun x => ballFilterOk hF wF x) :=
        List.filter_cons_of_neg (by simpa using hf)
      rcases p with ⟨best, bs⟩
      rw [selectBallLoop_cons_false hF wF c rest best bs (by tauto), hfilter]
      exact ih _ a hs' hrel

/-- C3 (amended): with candidate coordinates truncated to integers as the
source does, `_select_ball` keeps exactly the candidates passing the
geometric filter and returns the first-seen one of maximal confidence —
provided every candidate's confidence exceeds `-1` (the loop's sentinel
`best_score = -1.0`), absent if no candidate survives. -/
theorem selectBall_eq_spec (hF wF : ℚ) (cands : List Cand)
    (hs : ∀ c ∈ cands, (-1 : ℚ) < c.score) :
    selectBall hF wF cands = selectBallSpec hF wF cands := by
  unfold selectBall selectBallSpec
  exact selectBallLoop_agrees hF wF cands (none, -1) none hs (Or.inl ⟨rfl, rfl⟩)

/-- Witness for `selectBall_eq_spec` at a concrete candidate list. -/
theorem selectBall_eq_spec_witness :
    (∀ c ∈ [(⟨0, 30, 10, 40, 9/10⟩ : Cand)], (-1 : ℚ) < c.score) ∧
      selectBall 100 100 [⟨0, 30, 10, 40, 9/10⟩] =
        selectBallSpec 100 100 [⟨0, 30, 10, 40, 9/10⟩] :=
  ⟨by intro c hc; simp at hc; subst hc; norm_num,
    selectBall_eq_spec 100 100 _ (by intro c hc; simp at hc; subst hc; norm_num)⟩

/-- C3 counterexample.  First: the candidate `(0, 30, 10, 40)` with
confidence `-2` in a `100 × 100` frame passes every geometric filter
condition, yet `_select_ball` returns absent because the score does not
exceed the `-1.0` sentinel — contradicting "the highest-confidence
surviving candidate is returned".  Second: the candidate
`(0, 0, 3.9, 2)` has raw aspect ratio `1.95 > 1.8`, so on the claim's
(raw-coordinate) reading it must be rejected, yet the source truncates to
`(0, 0, 3, 2)` (aspect `1.5`) and selects it in a `100 × 10` frame. -/
theorem selectBall_counterexample :
    (ballFilterOk 100 100 ⟨0, 30, 10, 40, -2⟩ = true ∧
      selectBall 100 100 [⟨0, 30, 10, 40, -2⟩] = none) ∧
      (((39 : ℚ)/10 - 0) / (2 - 0) > 9/5 ∧
        selectBall 10 100 [⟨0, 0, 39/10, 2, 1/2⟩] = some (0, 0, 3, 2)) := by
  refine ⟨⟨?_, ?_⟩, ?_, ?_⟩
  · norm_num [ballFilterOk, pyInt]
  · norm_num [selectBall, selectBallLoop, ballFilterOk, pyInt]
  · norm_num
  · norm_num [selectBall, selectBallLoop, ballFilterOk, pyInt, candIntBoxQ]

/-! ### Ball smoother lemmas -/

theorem updateBallSmoothing_hist (raw : Option Box) (s : BallSmooth) :
    (updateBallSmoothing raw s).ball_history = pushHist s.ball_history raw := by
  unfold updateBallSmoothing
  split
  · rfl
  · split <;> rfl

/-- Pushing preserves any short suffix of the history (the pop is from the
front and can only happen when the list is long). -/
theorem pushHist_suffix (l : List (Option Box)) (x : Option Box)
    (s' b : List (Option Box)) (h : l = b ++ s') (hlen : s'.length ≤ 4) :
    ∃ b', pushHist l x = b' ++ (s' ++ [x]) := by
  unfold pushHist
  by_cases hc : maxBallHistory < (l ++ [x]).length
  · rw [if_pos hc]
    subst h
    have hb : b ≠ [] := by
      intro hb0
      subst hb0
      simp [maxBallHistory] at hc
      omega
    refine ⟨b.drop 1, ?_⟩
    rw [List.append_assoc, List.drop_append_of_le_length]
    exact Nat.one_le_iff_ne_zero.mpr (by simpa [List.length_eq_zero] using hb)
  · rw [if_neg hc]
    exact ⟨b, by rw [h, List.append_assoc]⟩

theorem countTrailingNone_three (b : List (Option Box)) :
    3 ≤ countTrailingNone (b ++ [none, none, none]) := by
  unfold countTrailingNone
  rw [List.reverse_append]
  simp [List.takeWhile_cons]

theorem updateBallSmoothing_smoothed_of_lost (raw : Option Box) (s : BallSmooth)
    (h : 3 ≤ countTrailingNone (pushHist s.ball_history raw)) :
    (updateBallSmoothing raw s).smoothed_ball = none := by
  unfold updateBallSmoothing
  rw [if_pos h]

/-- C6: after three consecutive absent observations, the smoothed ball is
absent, whatever the prior state. -/
theorem ball_lost_after_three_misses (s : BallSmooth) :
    (updateBallSmoothing none (updateBallSmoothing none
      (updateBallSmoothing none s))).smoothed_ball = none := by
  obtain ⟨b1, hb1⟩ :=
    pushHist_suffix s.ball_history none [] s.ball_history (by simp) (by simp)
  obtain ⟨b2, hb2⟩ :=
    pushHist_suffix (updateBallSmoothing none s).ball_history none [none] b1
      (by rw [updateBallSmoothing_hist]; simpa using hb1) (by simp)
  obtain ⟨b3, hb3⟩ :=
    pushHist_suffix
      (updateBallSmoothing none (updateBallSmoothing none s)).ball_history none
      [none, none] b2
      (by rw [updateBallSmoothing_hist]; simpa using hb2) (by simp)
  have h4 : 3 ≤ countTrailingNone
      (pushHist (updateBallSmoothing none
        (updateBallSmoothing none s)).ball_history none) := by
    rw [hb3]
    simpa using countTrailingNone_three b3
  exact updateBallSmoothing_smoothed_of_lost none _ h4

theorem pushHist_length_le (l : List (Option Box)) (x : Option Box)
    (h : l.length ≤ 5) : (pushHist l x).length ≤ 5 := by
  unfold pushHist maxBallHistory
  split
  · simp only [List.length_drop, List.length_append, List.length_singleton]
    omega
  · rename_i h2
    simp only [not_lt, List.length_append, List.length_singleton] at h2
    simp only [List.length_append, List.length_singleton]
    omega

theorem updateBallSmoothing_len (raw : Option Box) (s : BallSmooth)
    (h : s.ball_history.length ≤ 5) :
    (updateBallSmoothing raw s).ball_history.length ≤ 5 := by
  rw [updateBallSmoothing_hist]
  exact pushHist_length_le _ _ h

theorem feedBall_len (prior : List (Option Box)) :
    (feedBall prior).ball_history.length ≤ 5 := by
  suffices h : ∀ (l : List (Option Box)) (s : BallSmooth),
      s.ball_history.length ≤ 5 →
      (l.foldl (fun st raw => updateBallSmoothing raw st) s).ball_history.length ≤ 5 by
    exact h prior ballSmoothInit (by simp [ballSmoothInit])
  intro l
  induction l with
  | nil => intro s hs; exact hs
  | cons x rest ih =>
    intro s hs
    exact ih _ (updateBallSmoothing_len x s hs)

theorem smoothFrom_replicate : smoothFrom (List.replicate 5 ballBoxTen) = ballBoxTen := by
  simp [smoothFrom, ballBoxTen, List.sum_replicate]
  norm_num

theorem filterMap_id_replicate :
    (List.replicate 5 (some ballBoxTen)).filterMap id = List.replicate 5 ballBoxTen := by
  simp [List.filterMap_replicate]

theorem countTrailingNone_replicate :
    countTrailingNone (List.replicate 5 (some ballBoxTen)) = 0 := by
  simp [countTrailingNone, List.takeWhile]

theorem pushHist_replicate :
    pushHist (List.replicate 5 (some ballBoxTen)) (some ballBoxTen) =
      List.replicate 5 (some ballBoxTen) := by
  have h6 : List.replicate 5 (some ballBoxTen) ++ [some ballBoxTen] =
      List.replicate 6 (some ballBoxTen) := (List.replicate_succ' _ _).symm
  simp [pushHist, maxBallHistory, h6]

/-- Updating on the all-`ballBoxTen` state reproduces it exactly. -/
theorem updateBallSmoothing_fix :
    updateBallSmoothing (some ballBoxTen)
        ⟨List.replicate 5 (some ballBoxTen), some ballBoxTen⟩ =
      ⟨List.replicate 5 (some ballBoxTen), some ballBoxTen⟩ := by
  unfold updateBallSmoothing
  rw [show (⟨List.replicate 5 (some ballBoxTen), some ballBoxTen⟩ :
      BallSmooth).ball_history = List.replicate 5 (some ballBoxTen) from rfl,
    pushHist_replicate, countTrailingNone_replicate, filterMap_id_replicate]
  rw [if_neg (by omega), if_neg (by simp), smoothFrom_replicate]

/-- The non-lost, non-empty branch of the smoother, as an equation. -/
theorem updateBallSmoothing_eq (raw : Option Box) (s : BallSmooth)
    (h3 : ¬ 3 ≤ countTrailingNone (pushHist s.ball_history raw))
    (hne : (pushHist s.ball_history raw).filterMap id ≠ []) :
    updateBallSmoothing raw s =
      ⟨pushHist s.ball_history raw,
        some (smoothFrom ((pushHist s.ball_history raw).filterMap id))⟩ := by
  unfold updateBallSmoothing
  rw [if_neg h3, if_neg hne]

/-- Feeding `ballBoxTen` to any state whose history fits the capacity
reaches the all-`ballBoxTen` state in exactly five steps. -/
theorem converge_in_five (s : BallSmooth) (h : s.ball_history.length ≤ 5) :
    (updateBallSmoothing (some ballBoxTen))^[5] s =
      ⟨List.replicate 5 (some ballBoxTen), some ballBoxTen⟩ := by
  have hlen : ∀ k : ℕ,
      ((updateBallSmoothing (some ballBoxTen))^[k] s).ball_history.length ≤ 5 := by
    intro k
    induction k with
    | zero => exact h
    | succ m ih =>
      rw [Function.iterate_succ_apply']
      exact updateBallSmoothing_len _ _ ih
  have hsuf : ∀ k : ℕ, k ≤ 5 → ∃ b,
      ((updateBallSmoothing (some ballBoxTen))^[k] s).ball_history =
        b ++ List.replicate k (some ballBoxTen) := by
    intro k
    induction k with
    | zero => exact fun _ => ⟨s.ball_history, by simp⟩
    | succ m ih =>
      intro hm5
      obtain ⟨b, hb⟩ := ih (by omega)
      rw [Function.iterate_succ_apply', updateBallSmoothing_hist]
      obtain ⟨b', hb'⟩ := pushHist_suffix _ (some ballBoxTen)
        (List.replicate m (some ballBoxTen)) b hb (by simp; omega)
      refine ⟨b', ?_⟩
      rw [hb', ← List.replicate_succ' m (some ballBoxTen)]
  obtain ⟨b, hb⟩ := hsuf 5 le_rfl
  have hb0 : b = [] := by
    have hl := hlen 5
    rw [hb, List.length_append, List.length_replicate] at hl
    have : b.length = 0 := by omega
    simpa [List.length_eq_zero] using this
  subst hb0
  have h5 : ((updateBallSmoothing (some ballBoxTen))^[5] s).ball_history =
      List.replicate 5 (some ballBoxTen) := by
    rw [List.nil_append] at hb
    exact hb
  have h45 : (updateBallSmoothing (some ballBoxTen))^[4 + 1] s =
      updateBallSmoothing (some ballBoxTen)
        ((updateBallSmoothing (some ballBoxTen))^[4] s) :=
    Function.iterate_succ_apply' _ 4 s
  have hpush : pushHist
      ((updateBallSmoothing (some ballBoxTen))^[4] s).ball_history
      (some ballBoxTen) = List.replicate 5 (some ballBoxTen) := by
    rw [← updateBallSmoothing_hist, ← h45]
    exact h5
  have h3 : ¬ 3 ≤ countTrailingNone (pushHist
      ((updateBallSmoothing (some ballBoxTen))^[4] s).ball_history
      (some ballBoxTen)) := by
    rw [hpush, countTrailingNone_replicate]
    omega
  have hne : (pushHist
      ((updateBallSmoothing (some ballBoxTen))^[4] s).ball_history
      (some ballBoxTen)).filterMap id ≠ [] := by
    rw [hpush, filterMap_id_replicate]
    simp
  have hstep := updateBallSmoothing_eq (some ballBoxTen)
    ((updateBallSmoothing (some ballBoxTen))^[4] s) h3 hne
  rw [hpush, filterMap_id_replicate, smoothFrom_replicate] at hstep
  exact h45.trans hstep

/-- C7: feeding the identical box `(0, 0, 10, 10)` at least five times to the
smoother — after any prior observation sequence — yields the smoothed box
`(0, 0, 10, 10)` exactly. -/
theorem ball_smoother_converges (prior : List (Option Box)) (n : ℕ) (hn : 5 ≤ n) :
    ((updateBallSmoothing (some ballBoxTen))^[n] (feedBall prior)).smoothed_ball =
      some ballBoxTen := by
  obtain ⟨k, rfl⟩ : ∃ k, n = k + 5 := ⟨n - 5, by omega⟩
  rw [Function.iterate_add_apply, converge_in_five _ (feedBall_len prior)]
  induction k with
  | zero => rfl
  | succ m ihm =>
    rw [Function.iterate_succ_apply, updateBallSmoothing_fix]
    exact ihm (by omega)

/-- Witness for `ball_smoother_converges` at the empty prior and `n = 5`. -/
theorem ball_smoother_converges_witness :
    5 ≤ 5 ∧
      ((updateBallSmoothing (some ballBoxTen))^[5] (feedBall [])).smoothed_ball =
        some ballBoxTen :=
  ⟨le_refl 5, ball_smoother_converges [] 5 (le_refl 5)⟩

/-! ### Tracker lemmas -/

theorem assignAll_snd : ∀ (dets : List Box) (s : TrackerState) (fidx : ℤ),
    ((assignAll s fidx dets).2).map Prod.snd = dets := by
  intro dets
  induction dets with
  | nil => intro s fidx; rfl
  | cons b rest ih =>
    intro s fidx
    simp only [assignAll, List.map_cons]
    rw [ih]

theorem trackStep_none (s : TrackerState) (fidx : ℤ) (b : Box)
    (h : findBest s.max_distance (centroid b) s.tracks = none) :
    trackStep s fidx b =
      (⟨s.max_distance, s.next_id + 1, dictSet s.tracks s.next_id (centroid b),
        histAppend s.history s.next_id (fidx, centroid b)⟩, (s.next_id, b)) := by
  unfold trackStep
  rw [h]

theorem trackStep_some (s : TrackerState) (fidx : ℤ) (b : Box) (tid : ℕ) (d : ℚ)
    (h : findBest s.max_distance (centroid b) s.tracks = some (tid, d)) :
    trackStep s fidx b =
      (⟨s.max_distance, s.next_id, dictSet s.tracks tid (centroid b),
        histAppend s.history tid (fidx, centroid b)⟩, (tid, b)) := by
  unfold trackStep
  rw [h]

theorem trackStep_out_box (s : TrackerState) (fidx : ℤ) (b : Box) :
    (trackStep s fidx b).2.2 = b := by
  rcases h : findBest s.max_distance (centroid b) s.tracks with _ | ⟨tid, d⟩
  · rw [trackStep_none s fidx b h]
  · rw [trackStep_some s fidx b tid d h]

theorem trackLoop_snd : ∀ (dets : List Box) (s : TrackerState) (fidx : ℤ),
    ((trackLoop s fidx dets).2).map Prod.snd = dets := by
  intro dets
  induction dets with
  | nil => intro s fidx; rfl
  | cons b rest ih =>
    intro s fidx
    simp only [trackLoop, List.map_cons]
    rw [ih, trackStep_out_box]

/-- C4: `SimpleTracker.update` returns exactly one `(track_id, box)` pair
per input detection, in the input order (so it never emits two ids for one
detection nor fewer pairs than detections). -/
theorem tracker_one_output_per_detection (s : TrackerState) (dets : List Box)
    (fidx : ℤ) :
    ((trackerUpdate s dets fidx).2).map Prod.snd = dets ∧
      ((trackerUpdate s dets fidx).2).length = dets.length := by
  have hmap : ((trackerUpdate s dets fidx).2).map Prod.snd = dets := by
    unfold trackerUpdate
    split
    · exact assignAll_snd dets s fidx
    · exact trackLoop_snd dets s fidx
  refine ⟨hmap, ?_⟩
  calc ((trackerUpdate s dets fidx).2).length
      = (((trackerUpdate s dets fidx).2).map Prod.snd).length :=
        (List.length_map _ _).symm
    _ = dets.length := by rw [hmap]

theorem findBest_none (m : ℚ) (c : ℚ × ℚ) :
    ∀ (tracks : List (ℕ × (ℚ × ℚ))),
      (∀ e ∈ tracks, sqrtLeB (distSq c e.2) m = false) →
      findBest m c tracks = none := by
  intro tracks
  induction tracks with
  | nil => intro _; rfl
  | cons e rest ih =>
    intro h
    have he : sqrtLeB (distSq c e.2) m = false := h e (List.mem_cons_self e rest)
    have hstep : findBestStep m c none e = none := by
      unfold findBestStep
      rw [he, Bool.and_false]
      rfl
    unfold findBest
    rw [List.foldl_cons, hstep]
    exact ih (fun x hx => h x (List.mem_cons_of_mem _ hx))

theorem findBestStep_cases (m : ℚ) (c : ℚ × ℚ) (acc : Option (ℕ × ℚ))
    (e : ℕ × (ℚ × ℚ)) :
    findBestStep m c acc e = some (e.1, distSq c e.2) ∨
      findBestStep m c acc e = acc := by
  unfold findBestStep
  split
  · exact Or.inl rfl
  · exact Or.inr rfl

theorem findBest_mem_aux (m : ℚ) (c : ℚ × ℚ) :
    ∀ (tracks : List (ℕ × (ℚ × ℚ))) (acc : Option (ℕ × ℚ)) (p : ℕ × ℚ),
      List.foldl (findBestStep m c) acc tracks = some p →
      acc = some p ∨ p.1 ∈ tracks.map Prod.fst := by
  intro tracks
  induction tracks with
  | nil => intro acc p h; exact Or.inl h
  | cons e rest ih =>
    intro acc p h
    rw [List.foldl_cons] at h
    rcases ih (findBestStep m c acc e) p h with hacc | hmem
    · rcases findBestStep_cases m c acc e with he | he
      · rw [he] at hacc
        have : p.1 = e.1 := by
          cases hacc
          rfl
        right
        simp [this]
      · rw [he] at hacc
        exact Or.inl hacc
    · right
      simp [hmem]

theorem findBest_mem (m : ℚ) (c : ℚ × ℚ) (tracks : List (ℕ × (ℚ × ℚ)))
    (tid : ℕ) (d : ℚ) (h : findBest m c tracks = some (tid, d)) :
    tid ∈ tracks.map Prod.fst := by
  rcases findBest_mem_aux m c tracks none (tid, d) h with h0 | hm
  · exact absurd h0 (by simp)
  · exact hm

theorem dictSet_fst_mem {α : Type} (l : List (ℕ × α)) (k : ℕ) (v : α) :
    ∀ i ∈ (dictSet l k v).map Prod.fst, i = k ∨ i ∈ l.map Prod.fst := by
  intro i hi
  unfold dictSet at hi
  split at hi
  · rw [List.map_map] at hi
    obtain ⟨e, he, hei⟩ := List.mem_map.mp hi
    by_cases hek : e.1 = k
    · left
      rw [← hei]
      simp [Function.comp, hek]
    · right
      rw [← hei]
      simp only [Function.comp, if_neg hek]
      exact List.mem_map_of_mem Prod.fst he
  · rw [List.map_append] at hi
    rcases List.mem_append.mp hi with h1 | h2
    · exact Or.inr h1
    · left
      simpa using h2

theorem trackStep_inv (s : TrackerState) (fidx : ℤ) (b : Box)
    (hinv : TrackerInv s) : TrackerInv (trackStep s fidx b).1 := by
  unfold TrackerInv at hinv ⊢
  rcases h : findBest s.max_distance (centroid b) s.tracks with _ | ⟨tid, d⟩
  · rw [trackStep_none s fidx b h]
    intro i hi
    rcases dictSet_fst_mem _ _ _ i hi with rfl | hmem
    · exact Nat.lt_succ_self _
    · exact Nat.lt_succ_of_lt (hinv i hmem)
  · rw [trackStep_some s fidx b tid d h]
    intro i hi
    rcases dictSet_fst_mem _ _ _ i hi with rfl | hmem
    · exact hinv i (findBest_mem _ _ _ _ _ h)
    · exact hinv i hmem

theorem assignAll_inv : ∀ (dets : List Box) (s : TrackerState) (fidx : ℤ),
    TrackerInv s → TrackerInv (assignAll s fidx dets).1 := by
  intro dets
  induction dets with
  | nil => exact fun s fidx h => h
  | cons b rest ih =>
    intro s fidx hinv
    apply ih
    intro i hi
    rcases dictSet_fst_mem _ _ _ i hi with rfl | hmem
    · exact Nat.lt_succ_self _
    · exact Nat.lt_succ_of_lt (hinv i hmem)

theorem trackLoop_inv : ∀ (dets : List Box) (s : TrackerState) (fidx : ℤ),
    TrackerInv s → TrackerInv (trackLoop s fidx dets).1 := by
  intro dets
  induction dets with
  | nil => exact fun s fidx h => h
  | cons b rest ih =>
    intro s fidx hinv
    exact ih _ fidx (trackStep_inv s fidx b hinv)

theorem trackerUpdate_inv (s : TrackerState) (dets : List Box) (fidx : ℤ)
    (h : TrackerInv s) : TrackerInv (trackerUpdate s dets fidx).1 := by
  unfold trackerUpdate
  split
  · exact assignAll_inv dets s fidx h
  · exact trackLoop_inv dets s fidx h

theorem reach_inv (s : TrackerState) (h : TrackerReachable s) : TrackerInv s := by
  induction h with
  | init m => intro i hi; simp [trackerInit] at hi
  | step s dets fidx _ ih => exact trackerUpdate_inv s dets fidx ih

theorem trackLoop_length (dets : List Box) (s : TrackerState) (fidx : ℤ) :
    ((trackLoop s fidx dets).2).length = dets.length := by
  have h := trackLoop_snd dets s fidx
  calc ((trackLoop s fidx dets).2).length
      = (((trackLoop s fidx dets).2).map Prod.snd).length :=
        (List.length_map _ _).symm
    _ = dets.length := by rw [h]

theorem trackLoop_append : ∀ (pre : List Box) (s : TrackerState) (fidx : ℤ)
    (rest : List Box),
    trackLoop s fidx (pre ++ rest) =
      ((trackLoop (trackLoop s fidx pre).1 fidx rest).1,
        (trackLoop s fidx pre).2 ++
          (trackLoop (trackLoop s fidx pre).1 fidx rest).2) := by
  intro pre
  induction pre with
  | nil => intro s fidx rest; simp [trackLoop]
  | cons b pre2 ih =>
    intro s fidx rest
    simp only [List.cons_append, trackLoop, List.append_eq]
    rw [ih]

theorem assignAll_length (dets : List Box) (s : TrackerState) (fidx : ℤ) :
    ((assignAll s fidx dets).2).length = dets.length := by
  have h := assignAll_snd dets s fidx
  calc ((assignAll s fidx dets).2).length
      = (((assignAll s fidx dets).2).map Prod.snd).length :=
        (List.length_map _ _).symm
    _ = dets.length := by rw [h]

theorem assignAll_append : ∀ (pre : List Box) (s : TrackerState) (fidx : ℤ)
    (rest : List Box),
    assignAll s fidx (pre ++ rest) =
      ((assignAll (assignAll s fidx pre).1 fidx rest).1,
        (assignAll s fidx pre).2 ++
          (assignAll (assignAll s fidx pre).1 fidx rest).2) := by
  intro pre
  induction pre with
  | nil => intro s fidx rest; simp [assignAll]
  | cons b pre2 ih =>
    intro s fidx rest
    simp only [List.cons_append, assignAll, List.append_eq]
    rw [ih]

/-- C5: in `SimpleTracker.update`, whenever the detection at position
`pre.length` of the input is farther than `max_distance` from every track
centroid stored at the moment it is processed (i.e. after the detections
`pre` before it have been handled), the update emits for it the fresh id
`next_id` of that moment, and that id strictly exceeds every previously
minted id (the stored track keys; tracks are never removed, so these are
exactly the ids minted so far).  First conjunct: the matching branch;
second conjunct: the empty-store branch, which mints fresh ids for every
detection, far or not. -/
theorem new_track_mints_fresh_id (s : TrackerState) (fidx : ℤ)
    (pre post : List Box) (b : Box) (hreach : TrackerReachable s) :
    (s.tracks ≠ [] →
      (∀ e ∈ ((trackLoop s fidx pre).1).tracks,
        sqrtLeB (distSq (centroid b) e.2)
          ((trackLoop s fidx pre).1).max_distance = false) →
      (trackerUpdate s (pre ++ b :: post) fidx).2[pre.length]? =
          some (((trackLoop s fidx pre).1).next_id, b) ∧
        ∀ tid ∈ ((trackLoop s fidx pre).1).tracks.map Prod.fst,
          tid < ((trackLoop s fidx pre).1).next_id) ∧
    (s.tracks = [] →
      (trackerUpdate s (pre ++ b :: post) fidx).2[pre.length]? =
          some (((assignAll s fidx pre).1).next_id, b) ∧
        ∀ tid ∈ ((assignAll s fidx pre).1).tracks.map Prod.fst,
          tid < ((assignAll s fidx pre).1).next_id) := by
  constructor
  · intro hne hfar
    have hinv : TrackerInv (trackLoop s fidx pre).1 :=
      trackLoop_inv pre s fidx (reach_inv s hreach)
    have hnone : findBest ((trackLoop s fidx pre).1).max_distance (centroid b)
        ((trackLoop s fidx pre).1).tracks = none :=
      findBest_none _ _ _ hfar
    constructor
    · unfold trackerUpdate
      rw [if_neg hne, trackLoop_append]
      have hlen : ((trackLoop s fidx pre).2).length = pre.length :=
        trackLoop_length pre s fidx
      rw [List.getElem?_append_right (by omega)]
      rw [hlen]
      simp only [Nat.sub_self]
      show ((trackLoop (trackLoop s fidx pre).1 fidx (b :: post)).2)[0]? = _
      simp only [trackLoop]
      rw [trackStep_none _ fidx b hnone]
      rw [List.getElem?_cons_zero]
    · exact fun tid h => hinv tid h
  · intro hemp
    have hinv : TrackerInv (assignAll s fidx pre).1 :=
      assignAll_inv pre s fidx (reach_inv s hreach)
    constructor
    · unfold trackerUpdate
      rw [if_pos hemp, assignAll_append]
      have hlen : ((assignAll s fidx pre).2).length = pre.length :=
        assignAll_length pre s fidx
      rw [List.getElem?_append_right (by omega)]
      rw [hlen]
      simp only [Nat.sub_self]
      show ((assignAll (assignAll s fidx pre).1 fidx (b :: post)).2)[0]? = _
      simp only [assignAll]
      rw [List.getElem?_cons_zero]
    · exact fun tid h => hinv tid h

/-- Witness for `new_track_mints_fresh_id`: one update creates track 1 near
the origin; a second update sees a detection far from it and mints id 2. -/
theorem new_track_mints_fresh_id_witness :
    ((trackerUpdate (trackerInit 60) [(0, 0, 2, 2)] 0).1.tracks ≠ [] →
      (∀ e ∈ ((trackLoop (trackerUpdate (trackerInit 60) [(0, 0, 2, 2)] 0).1
          1 []).1).tracks,
        sqrtLeB (distSq (centroid ((100 : ℚ), (100 : ℚ), (102 : ℚ), (102 : ℚ))) e.2)
          ((trackLoop (trackerUpdate (trackerInit 60) [(0, 0, 2, 2)] 0).1
            1 []).1).max_distance = false) →
      (trackerUpdate (trackerUpdate (trackerInit 60) [(0, 0, 2, 2)] 0).1
            ([] ++ (100, 100, 102, 102) :: []) 1).2[List.length ([] : List Box)]? =
          some (((trackLoop (trackerUpdate (trackerInit 60) [(0, 0, 2, 2)] 0).1
            1 []).1).next_id, (100, 100, 102, 102)) ∧
        ∀ tid ∈ ((trackLoop (trackerUpdate (trackerInit 60) [(0, 0, 2, 2)] 0).1
            1 []).1).tracks.map Prod.fst,
          tid < ((trackLoop (trackerUpdate (trackerInit 60) [(0, 0, 2, 2)] 0).1
            1 []).1).next_id) ∧
    ((trackerUpdate (trackerInit 60) [(0, 0, 2, 2)] 0).1.tracks = [] →
      (trackerUpdate (trackerUpdate (trackerInit 60) [(0, 0, 2, 2)] 0).1
            ([] ++ (100, 100, 102, 102) :: []) 1).2[List.length ([] : List Box)]? =
          some (((assignAll (trackerUpdate (trackerInit 60) [(0, 0, 2, 2)] 0).1
            1 []).1).next_id, (100, 100, 102, 102)) ∧
        ∀ tid ∈ ((assignAll (trackerUpdate (trackerInit 60) [(0, 0, 2, 2)] 0).1
            1 []).1).tracks.map Prod.fst,
          tid < ((assignAll (trackerUpdate (trackerInit 60) [(0, 0, 2, 2)] 0).1
            1 []).1).next_id) :=
  new_track_mints_fresh_id (trackerUpdate (trackerInit 60) [(0, 0, 2, 2)] 0).1
    1 [] [] (100, 100, 102, 102)
    (TrackerReachable.step (trackerInit 60) [(0, 0, 2, 2)] 0
      (TrackerReachable.init 60))

/-! ### Possession lemmas -/

/-- The pair comparison decides exactly the real score comparison
`1 + m - sqrt d2 / r`, certifying the score encoding. -/
theorem scoreGtB_correct (r : ℚ) (p q : ℚ × ℚ) (hr : 0 < r)
    (hp : 0 ≤ p.2) (hq : 0 ≤ q.2) :
    scoreGtB r p q = true ↔
      1 + (q.1 : ℝ) - Real.sqrt (q.2 : ℝ) / r <
        1 + (p.1 : ℝ) - Real.sqrt (p.2 : ℝ) / r := by
  have hrR : (0 : ℝ) < (r : ℝ) := by exact_mod_cast hr
  have hrne : (r : ℝ) ≠ 0 := ne_of_gt hrR
  unfold scoreGtB
  rw [sqrtGtAux_correct _ _ _ hq hp]
  have hcast : ((r * (q.1 - p.1) : ℚ) : ℝ) = (r : ℝ) * ((q.1 : ℝ) - (p.1 : ℝ)) := by
    push_cast
    ring
  rw [hcast]
  constructor
  · intro h
    rw [← mul_lt_mul_right hrR]
    have e1 : (1 + (q.1 : ℝ) - Real.sqrt (q.2 : ℝ) / r) * r =
        r + q.1 * r - Real.sqrt (q.2 : ℝ) := by
      field_simp
      ring
    have e2 : (1 + (p.1 : ℝ) - Real.sqrt (p.2 : ℝ) / r) * r =
        r + p.1 * r - Real.sqrt (p.2 : ℝ) := by
      field_simp
      ring
    rw [e1, e2]
    nlinarith [h]
  · intro h
    rw [← mul_lt_mul_right hrR] at h
    have e1 : (1 + (q.1 : ℝ) - Real.sqrt (q.2 : ℝ) / r) * r =
        r + q.1 * r - Real.sqrt (q.2 : ℝ) := by
      field_simp
      ring
    have e2 : (1 + (p.1 : ℝ) - Real.sqrt (p.2 : ℝ) / r) * r =
        r + p.1 * r - Real.sqrt (p.2 : ℝ) := by
      field_simp
      ring
    rw [e1, e2] at h
    nlinarith [h]

/-- `update` on a direct winner of team A or B. -/
theorem possessionUpdate_direct (st : PossState) (tracks : List (ℕ × Box))
    (teamOf : ℕ → Option String) (ball : Option Box) (t : String)
    (h : directWinner st tracks teamOf ball = some t) (ht : t = "A" ∨ t = "B") :
    possessionUpdate st tracks teamOf ball =
      { st with
        recent_winners := pushWinner st.recent_winners (some t) st.window_frames,
        prev_player_centers := playerCenters tracks,
        last_team := some t,
        last_team_memory_left := st.memory_frames,
        global_counts := fun k =>
          if k = t then st.global_counts k + 1 else st.global_counts k,
        total_ball_frames := st.total_ball_frames + 1 } := by
  unfold possessionUpdate
  rw [h]
  simp only [applyWinner]
  rw [if_pos ht]

/-- `update` with no direct winner while the memory is serving. -/
theorem possessionUpdate_memory (st : PossState) (tracks : List (ℕ × Box))
    (teamOf : ℕ → Option String) (ball : Option Box)
    (h : directWinner st tracks teamOf ball = none)
    (hm : 0 < st.last_team_memory_left ∧
      (st.last_team = some "A" ∨ st.last_team = some "B")) :
    possessionUpdate st tracks teamOf ball =
      { st with
        recent_winners := pushWinner st.recent_winners st.last_team st.window_frames,
        prev_player_centers := playerCenters tracks,
        last_team_memory_left := st.last_team_memory_left - 1 } := by
  unfold possessionUpdate
  rw [h]
  simp only [applyWinner]
  rw [if_pos hm]

/-- `update` with no direct winner and exhausted (or empty) memory. -/
theorem possessionUpdate_nomem (st : PossState) (tracks : List (ℕ × Box))
    (teamOf : ℕ → Option String) (ball : Option Box)
    (h : directWinner st tracks teamOf ball = none)
    (hm : ¬(0 < st.last_team_memory_left ∧
      (st.last_team = some "A" ∨ st.last_team = some "B"))) :
    possessionUpdate st tracks teamOf ball =
      { st with
        recent_winners := pushWinner st.recent_winners none st.window_frames,
        prev_player_centers := playerCenters tracks } := by
  unfold possessionUpdate
  rw [h]
  simp only [applyWinner]
  rw [if_neg hm]

/-- C2 (amended): construction sets
`window_frames = max(1, int(window_seconds * fps))` and
`memory_frames = max(1, int(memory_seconds * fps))` — `int` truncation
toward zero, not `round` — and both counts are ≥ 1 for every `fps`,
including non-positive `fps`, with no fault. -/
theorem possession_init_frames (fps radius ws ms : ℚ) :
    ((possessionInit fps radius ws ms).window_frames : ℤ) =
        max 1 (pyInt (ws * fps)) ∧
      ((possessionInit fps radius ws ms).memory_frames : ℤ) =
        max 1 (pyInt (ms * fps)) ∧
      1 ≤ (possessionInit fps radius ws ms).window_frames ∧
      1 ≤ (possessionInit fps radius ws ms).memory_frames := by
  have hw : (1 : ℤ) ≤ max 1 (pyInt (ws * fps)) := le_max_left _ _
  have hm : (1 : ℤ) ≤ max 1 (pyInt (ms * fps)) := le_max_left _ _
  refine ⟨?_, ?_, ?_, ?_⟩ <;>
    simp only [possessionInit] <;>
    omega

/-- C2 counterexample: at `fps = 0.5` (exactly representable), the source's
`int(window_seconds * fps) = int(1.5) = 1` gives `window_frames = 1`,
while the claimed `max(1, round(1.5)) = 2`. -/
theorem possession_init_round_counterexample :
    (possessionInit (1/2) 60 3 (1/2)).window_frames = 1 ∧
      (max 1 (pyRound (3 * (1/2 : ℚ)))).toNat = 2 := by
  constructor
  · have h1 : pyInt (3 * (1/2 : ℚ)) = 1 := by
      norm_num [pyInt]
    show (max 1 (pyInt ((3 : ℚ) * (1/2)))).toNat = 1
    rw [h1]
    rfl
  · have h2 : pyRound (3 * (1/2 : ℚ)) = 2 := by
      norm_num [pyRound]
    rw [h2]
    rfl

/-- C9: the global statistics are untouched by any update without a direct
winner.  First conjunct: an absent ball never produces a direct winner (so
ball-absent frames and memory-fallback frames are both covered); second:
whenever the direct-observation phase yields none, `global_counts` and
`total_ball_frames` are unchanged. -/
theorem global_stats_only_direct (st : PossState) (tracks : List (ℕ × Box))
    (teamOf : ℕ → Option String) (ball : Option Box) :
    directWinner st tracks teamOf none = none ∧
      (directWinner st tracks teamOf ball = none →
        (possessionUpdate st tracks teamOf ball).global_counts =
            st.global_counts ∧
          (possessionUpdate st tracks teamOf ball).total_ball_frames =
            st.total_ball_frames) := by
  refine ⟨rfl, fun h => ?_⟩
  unfold possessionUpdate
  rw [h]
  simp only [applyWinner]
  split <;> exact ⟨rfl, rfl⟩

/-- Witness for `global_stats_only_direct` at the fresh tracker with an
absent ball. -/
theorem global_stats_only_direct_witness :
    directWinner (possessionInit 25 60 3 (1/2)) [] (fun _ => none) none = none ∧
      ((possessionUpdate (possessionInit 25 60 3 (1/2)) [] (fun _ => none)
            none).global_counts = (possessionInit 25 60 3 (1/2)).global_counts ∧
        (possessionUpdate (possessionInit 25 60 3 (1/2)) [] (fun _ => none)
            none).total_ball_frames =
          (possessionInit 25 60 3 (1/2)).total_ball_frames) :=
  ⟨(global_stats_only_direct (possessionInit 25 60 3 (1/2)) [] (fun _ => none)
      none).1,
    (global_stats_only_direct (possessionInit 25 60 3 (1/2)) [] (fun _ => none)
      none).2 rfl⟩

/-- Updates never change the configuration fields. -/
theorem possessionUpdate_config (st : PossState) (tracks : List (ℕ × Box))
    (teamOf : ℕ → Option String) (ball : Option Box) :
    (possessionUpdate st tracks teamOf ball).window_frames = st.window_frames ∧
      (possessionUpdate st tracks teamOf ball).memory_frames = st.memory_frames ∧
      (possessionUpdate st tracks teamOf ball).radius = st.radius := by
  unfold possessionUpdate applyWinner
  split <;> split <;> exact ⟨rfl, rfl, rfl⟩

theorem possStates_config (s0 : PossState)
    (seq : ℕ → List (ℕ × Box) × (ℕ → Option String) × Option Box) :
    ∀ n, (possStates s0 seq n).window_frames = s0.window_frames ∧
      (possStates s0 seq n).memory_frames = s0.memory_frames := by
  intro n
  induction n with
  | zero => exact ⟨rfl, rfl⟩
  | succ m ih =>
    have hc := possessionUpdate_config (possStates s0 seq m) (seq m).1
      (seq m).2.1 (seq m).2.2
    exact ⟨hc.1.trans ih.1, hc.2.1.trans ih.2⟩

theorem getLast?_drop {α : Type} : ∀ (l : List α) (k : ℕ), k < l.length →
    (l.drop k).getLast? = l.getLast? := by
  intro l
  induction l with
  | nil => intro k h; simp at h
  | cons a rest ih =>
    intro k h
    cases k with
    | zero => rfl
    | succ m =>
      rw [List.drop_succ_cons]
      have hm : m < rest.length := by simpa using h
      rw [ih m hm]
      rcases rest with _ | ⟨b, rest2⟩
      · simp at hm
      · rw [List.getLast?_cons_cons]

/-- The entry just appended to the window is its last entry whenever the
window capacity is at least 1. -/
theorem pushWinner_getLast (l : List (Option String)) (w : Option String)
    (maxlen : ℕ) (h : 1 ≤ maxlen) :
    (pushWinner l w maxlen).getLast? = some w := by
  unfold pushWinner
  split
  · rw [getLast?_drop]
    · exact List.getLast?_concat _
    · simp only [List.length_append, List.length_singleton]
      omega
  · exact List.getLast?_concat _

/-- C1 (amended): after a frame whose update produces a direct winner A
(resetting `last_team_memory_left` to `memory_frames`), if every following
update has no direct winner, then each of the next `memory_frames` updates
(offsets 1 .. memory_frames) still records winner A in `recent_winners`,
and the update at offset `memory_frames + 1` after the direct win records
no winner. -/
theorem possession_memory_duration (s0 : PossState)
    (seq : ℕ → List (ℕ × Box) × (ℕ → Option String) × Option Box)
    (hwf : 1 ≤ s0.window_frames)
    (hwin : directWinner s0 (seq 0).1 (seq 0).2.1 (seq 0).2.2 = some "A")
    (hnone : ∀ i, 1 ≤ i →
      directWinner (possStates s0 seq i) (seq i).1 (seq i).2.1 (seq i).2.2 =
        none) :
    (∀ j, 1 ≤ j → j ≤ s0.memory_frames →
      (possStates s0 seq (j + 1)).recent_winners.getLast? = some (some "A")) ∧
      (possStates s0 seq (s0.memory_frames + 2)).recent_winners.getLast? =
        some none := by
  have hwfn : ∀ n, 1 ≤ (possStates s0 seq n).window_frames := by
    intro n
    rw [(possStates_config s0 seq n).1]
    exact hwf
  have hbase : (possStates s0 seq 1).last_team = some "A" ∧
      (possStates s0 seq 1).last_team_memory_left = s0.memory_frames := by
    have h1 : possStates s0 seq 1 =
        possessionUpdate s0 (seq 0).1 (seq 0).2.1 (seq 0).2.2 := rfl
    rw [h1, possessionUpdate_direct _ _ _ _ _ hwin (Or.inl rfl)]
    exact ⟨rfl, rfl⟩
  have hmem : ∀ j, 1 ≤ j → j ≤ s0.memory_frames + 1 →
      (possStates s0 seq j).last_team = some "A" ∧
      (possStates s0 seq j).last_team_memory_left =
        s0.memory_frames - (j - 1) := by
    intro j
    induction j with
    | zero => intro h; omega
    | succ m ih =>
      intro _ hle
      rcases Nat.eq_zero_or_pos m with rfl | hm1
      · exact ⟨hbase.1, by simpa using hbase.2⟩
      · have hm := ih (by omega) (by omega)
        have hdw := hnone m (by omega)
        have hcond : 0 < (possStates s0 seq m).last_team_memory_left ∧
            ((possStates s0 seq m).last_team = some "A" ∨
              (possStates s0 seq m).last_team = some "B") := by
          refine ⟨?_, Or.inl hm.1⟩
          rw [hm.2]
          omega
        have hupd := possessionUpdate_memory (possStates s0 seq m) (seq m).1
          (seq m).2.1 (seq m).2.2 hdw hcond
        have heq : possStates s0 seq (m + 1) =
            possessionUpdate (possStates s0 seq m) (seq m).1 (seq m).2.1
              (seq m).2.2 := rfl
        constructor
        · rw [heq, hupd]
          exact hm.1
        · rw [heq, hupd]
          show (possStates s0 seq m).last_team_memory_left - 1 =
            s0.memory_frames - (m + 1 - 1)
          rw [hm.2]
          omega
  constructor
  · intro j hj1 hjM
    have hm := hmem j hj1 (by omega)
    have hdw := hnone j (by omega)
    have hcond : 0 < (possStates s0 seq j).last_team_memory_left ∧
        ((possStates s0 seq j).last_team = some "A" ∨
          (possStates s0 seq j).last_team = some "B") := by
      refine ⟨?_, Or.inl hm.1⟩
      rw [hm.2]
      omega
    have hupd := possessionUpdate_memory (possStates s0 seq j) (seq j).1
      (seq j).2.1 (seq j).2.2 hdw hcond
    have heq : possStates s0 seq (j + 1) =
        possessionUpdate (possStates s0 seq j) (seq j).1 (seq j).2.1
          (seq j).2.2 := rfl
    rw [heq, hupd]
    show (pushWinner (possStates s0 seq j).recent_winners
      (possStates s0 seq j).last_team
      (possStates s0 seq j).window_frames).getLast? = some (some "A")
    rw [pushWinner_getLast _ _ _ (hwfn j), hm.1]
  · have hm := hmem (s0.memory_frames + 1) (by omega) (by omega)
    have hdw := hnone (s0.memory_frames + 1) (by omega)
    have hcond : ¬(0 < (possStates s0 seq
          (s0.memory_frames + 1)).last_team_memory_left ∧
        ((possStates s0 seq (s0.memory_frames + 1)).last_team = some "A" ∨
          (possStates s0 seq (s0.memory_frames + 1)).last_team = some "B")) := by
      rintro ⟨hpos, _⟩
      rw [hm.2] at hpos
      omega
    have hupd := possessionUpdate_nomem (possStates s0 seq
        (s0.memory_frames + 1)) (seq (s0.memory_frames + 1)).1
      (seq (s0.memory_frames + 1)).2.1 (seq (s0.memory_frames + 1)).2.2 hdw hcond
    have heq : possStates s0 seq (s0.memory_frames + 2) =
        possessionUpdate (possStates s0 seq (s0.memory_frames + 1))
          (seq (s0.memory_frames + 1)).1 (seq (s0.memory_frames + 1)).2.1
          (seq (s0.memory_frames + 1)).2.2 := rfl
    rw [heq, hupd]
    show (pushWinner (possStates s0 seq (s0.memory_frames + 1)).recent_winners
      none (possStates s0 seq (s0.memory_frames + 1)).window_frames).getLast? =
        some none
    rw [pushWinner_getLast _ _ _ (hwfn (s0.memory_frames + 1))]

/-- `update` on a direct winner outside `{A, B}` (impossible in practice —
teams are filtered — but kept for faithfulness to the guard). -/
theorem possessionUpdate_nonteam (st : PossState) (tracks : List (ℕ × Box))
    (teamOf : ℕ → Option String) (ball : Option Box) (t : String)
    (h : directWinner st tracks teamOf ball = some t)
    (ht : ¬(t = "A" ∨ t = "B")) :
    possessionUpdate st tracks teamOf ball =
      { st with
        recent_winners := pushWinner st.recent_winners (some t) st.window_frames,
        prev_player_centers := playerCenters tracks } := by
  unfold possessionUpdate
  rw [h]
  simp only [applyWinner]
  rw [if_neg ht]

theorem possReachable_inv (st : PossState) (h : PossReachable st) :
    PossInv st := by
  induction h with
  | init fps radius ws ms => exact ⟨rfl, fun k _ _ => rfl⟩
  | step st tracks teamOf ball _ ih =>
    obtain ⟨ih1, ih2⟩ := ih
    rcases hdw : directWinner st tracks teamOf ball with _ | t
    · by_cases hm : 0 < st.last_team_memory_left ∧
        (st.last_team = some "A" ∨ st.last_team = some "B")
      · rw [possessionUpdate_memory st tracks teamOf ball hdw hm]
        exact ⟨ih1, ih2⟩
      · rw [possessionUpdate_nomem st tracks teamOf ball hdw hm]
        exact ⟨ih1, ih2⟩
    · by_cases ht : t = "A" ∨ t = "B"
      · rw [possessionUpdate_direct st tracks teamOf ball t hdw ht]
        constructor
        · show st.total_ball_frames + 1 =
            (if "A" = t then st.global_counts "A" + 1 else st.global_counts "A") +
            (if "B" = t then st.global_counts "B" + 1 else st.global_counts "B")
          rcases ht with rfl | rfl <;> simp <;> omega
        · intro k hA hB
          show (if k = t then st.global_counts k + 1 else st.global_counts k) = 0
          rcases ht with rfl | rfl
          · rw [if_neg hA]
            exact ih2 k hA hB
          · rw [if_neg hB]
            exact ih2 k hA hB
      · rw [possessionUpdate_nonteam st tracks teamOf ball t hdw ht]
        exact ⟨ih1, ih2⟩

theorem windowPercentages_nonneg (st : PossState) :
    0 ≤ (windowPercentages st).1 ∧ 0 ≤ (windowPercentages st).2 := by
  unfold windowPercentages
  split
  · exact ⟨le_refl 0, le_refl 0⟩
  · constructor <;> positivity

theorem globalPercentages_nonneg (st : PossState) :
    0 ≤ (globalPercentages st).1 ∧ 0 ≤ (globalPercentages st).2 := by
  unfold globalPercentages
  split
  · exact ⟨le_refl 0, le_refl 0⟩
  · constructor <;> positivity

theorem windowPercentages_sum (st : PossState)
    (hw : windowCountA st + windowCountB st ≠ 0) :
    (windowPercentages st).1 + (windowPercentages st).2 = 100 := by
  unfold windowPercentages
  rw [if_neg hw]
  have h : ((windowCountA st : ℚ) + (windowCountB st : ℚ)) ≠ 0 := by
    intro h0
    apply hw
    exact_mod_cast h0
  field_simp
  ring

theorem globalPercentages_sum (st : PossState)
    (h1 : st.total_ball_frames = st.global_counts "A" + st.global_counts "B")
    (ht : st.total_ball_frames ≠ 0) :
    (globalPercentages st).1 + (globalPercentages st).2 = 100 := by
  unfold globalPercentages
  rw [if_neg ht]
  have htQ : ((st.total_ball_frames : ℕ) : ℚ) ≠ 0 := by exact_mod_cast ht
  field_simp
  rw [h1]
  push_cast
  ring

/-- C10: in every reachable state, `total_ball_frames` equals
`global_counts "A" + global_counts "B"`, no key other than A and B is ever
counted, and the global percentages sum to exactly 100 whenever
`total_ball_frames > 0`. -/
theorem possession_global_invariant (st : PossState) (h : PossReachable st) :
    st.total_ball_frames = st.global_counts "A" + st.global_counts "B" ∧
      (∀ k, k ≠ "A" → k ≠ "B" → st.global_counts k = 0) ∧
      (0 < st.total_ball_frames →
        (globalPercentages st).1 + (globalPercentages st).2 = 100) := by
  obtain ⟨h1, h2⟩ := possReachable_inv st h
  exact ⟨h1, h2, fun hpos => globalPercentages_sum st h1 (by omega)⟩

/-- Witness for `possession_global_invariant` at a freshly constructed
tracker. -/
theorem possession_global_invariant_witness :
    (possessionInit 25 60 3 (1/2)).total_ball_frames =
        (possessionInit 25 60 3 (1/2)).global_counts "A" +
          (possessionInit 25 60 3 (1/2)).global_counts "B" ∧
      (∀ k, k ≠ "A" → k ≠ "B" →
        (possessionInit 25 60 3 (1/2)).global_counts k = 0) ∧
      (0 < (possessionInit 25 60 3 (1/2)).total_ball_frames →
        (globalPercentages (possessionInit 25 60 3 (1/2))).1 +
          (globalPercentages (possessionInit 25 60 3 (1/2))).2 = 100) :=
  possession_global_invariant (possessionInit 25 60 3 (1/2))
    (PossReachable.init 25 60 3 (1/2))

theorem countP_eq_zero_iff (l : List (Option String)) (x : Option String) :
    l.countP (fun w => w == x) = 0 ↔ x ∉ l := by
  rw [List.countP_eq_zero]
  constructor
  · intro h hx
    have := h x hx
    simp at this
  · intro h a ha
    simp only [beq_iff_eq]
    intro heq
    subst heq
    exact h ha

theorem countP_pos_mem (l : List (Option String)) (x : Option String)
    (h : 0 < l.countP (fun w => w == x)) : x ∈ l := by
  obtain ⟨a, ha, hax⟩ := List.countP_pos_iff.mp h
  have : a = x := by simpa using hax
  subst this
  exact ha

/-- C8: in every reachable state, both percentages are ≥ 0, their sum is
≤ 100, and the result is `(0, 0)` exactly when neither the window nor the
global counters hold any A or B entry. -/
theorem get_percentages_spec (st : PossState) (h : PossReachable st) :
    0 ≤ (getPercentages st).1 ∧ 0 ≤ (getPercentages st).2 ∧
      (getPercentages st).1 + (getPercentages st).2 ≤ 100 ∧
      (getPercentages st = (0, 0) ↔
        some "A" ∉ st.recent_winners ∧ some "B" ∉ st.recent_winners ∧
          st.global_counts "A" = 0 ∧ st.global_counts "B" = 0) := by
  obtain ⟨h1, h2⟩ := possReachable_inv st h
  by_cases hw : windowCountA st + windowCountB st = 0
  · have hwp : windowPercentages st = (0, 0) := by
      unfold windowPercentages
      rw [if_pos hw]
    have hget : getPercentages st = globalPercentages st := by
      unfold getPercentages
      rw [hwp]
      simp
    have hmemA : some "A" ∉ st.recent_winners :=
      (countP_eq_zero_iff st.recent_winners (some "A")).mp (by
        have : windowCountA st = 0 := by omega
        exact this)
    have hmemB : some "B" ∉ st.recent_winners :=
      (countP_eq_zero_iff st.recent_winners (some "B")).mp (by
        have : windowCountB st = 0 := by omega
        exact this)
    by_cases ht : st.total_ball_frames = 0
    · have hg : globalPercentages st = (0, 0) := by
        unfold globalPercentages
        rw [if_pos ht]
      have hA0 : st.global_counts "A" = 0 := by omega
      have hB0 : st.global_counts "B" = 0 := by omega
      rw [hget, hg]
      refine ⟨le_refl 0, le_refl 0, by norm_num, ?_⟩
      exact ⟨fun _ => ⟨hmemA, hmemB, hA0, hB0⟩, fun _ => rfl⟩
    · have hsum := globalPercentages_sum st h1 ht
      have hnn := globalPercentages_nonneg st
      rw [hget]
      refine ⟨hnn.1, hnn.2, by rw [hsum], ?_⟩
      constructor
      · intro heq
        rw [heq] at hsum
        norm_num at hsum
      · rintro ⟨_, _, hA0, hB0⟩
        omega
  · have hsum := windowPercentages_sum st hw
    have hnn := windowPercentages_nonneg st
    have hget : getPercentages st = windowPercentages st := by
      unfold getPercentages
      rw [if_neg (by rw [hsum]; norm_num)]
    rw [hget]
    refine ⟨hnn.1, hnn.2, by rw [hsum], ?_⟩
    constructor
    · intro heq
      rw [heq] at hsum
      norm_num at hsum
    · rintro ⟨hmA, hmB, _, _⟩
      rcases Nat.pos_of_ne_zero hw |> fun _ => (by omega :
        0 < windowCountA st ∨ 0 < windowCountB st) with hA | hB
      · exact absurd (countP_pos_mem _ _ hA) hmA
      · exact absurd (countP_pos_mem _ _ hB) hmB

/-- Witness for `get_percentages_spec` at a freshly constructed tracker. -/
theorem get_percentages_spec_witness :
    0 ≤ (getPercentages (possessionInit 25 60 3 (1/2))).1 ∧
      0 ≤ (getPercentages (possessionInit 25 60 3 (1/2))).2 ∧
      (getPercentages (possessionInit 25 60 3 (1/2))).1 +
          (getPercentages (possessionInit 25 60 3 (1/2))).2 ≤ 100 ∧
      (getPercentages (possessionInit 25 60 3 (1/2)) = (0, 0) ↔
        some "A" ∉ (possessionInit 25 60 3 (1/2)).recent_winners ∧
          some "B" ∉ (possessionInit 25 60 3 (1/2)).recent_winners ∧
          (possessionInit 25 60 3 (1/2)).global_counts "A" = 0 ∧
          (possessionInit 25 60 3 (1/2)).global_counts "B" = 0) :=
  get_percentages_spec (possessionInit 25 60 3 (1/2))
    (PossReachable.init 25 60 3 (1/2))

/-- C1 counterexample: with `memory_frames = 1`, after the direct A win at
frame 0 and no direct winner afterwards, the update at offset
`memory_frames` (= 1) after the win still records winner A in
`recent_winners` — the claim says that update records no winner. -/
theorem possession_memory_counterexample :
    cS0.memory_frames = 1 ∧
      directWinner cS0 (cSeq 0).1 (cSeq 0).2.1 (cSeq 0).2.2 = some "A" ∧
      (possStates cS0 cSeq 2).recent_winners.getLast? = some (some "A") := by
  refine ⟨?_, ?_, ?_⟩
  · norm_num [cS0, possessionInit, pyInt]
  · norm_num [directWinner, cS0, possessionInit, cSeq, cWinTracks, cWinTeam,
      cWinBall, playerCenters, dictSet, centroid, scoreLoop, scoreCand, velocity,
      dictGet, distSq, scoreGtB, sqrtGtAux, scoreInit, threshPair]
  · norm_num [possStates, possessionUpdate, applyWinner, directWinner, cS0,
      possessionInit, cSeq, cWinTracks, cWinTeam, cWinBall, playerCenters,
      dictSet, centroid, scoreLoop, scoreCand, velocity, dictGet, distSq,
      scoreGtB, sqrtGtAux, scoreInit, threshPair, pushWinner, pyInt]

/-- Witness for `possession_memory_duration` on the concrete scenario. -/
theorem possession_memory_duration_witness :
    (∀ j, 1 ≤ j → j ≤ cS0.memory_frames →
      (possStates cS0 cSeq (j + 1)).recent_winners.getLast? = some (some "A")) ∧
      (possStates cS0 cSeq (cS0.memory_frames + 2)).recent_winners.getLast? =
        some none :=
  possession_memory_duration cS0 cSeq
    (by norm_num [cS0, possessionInit, pyInt])
    (by norm_num [directWinner, cS0, possessionInit, cSeq, cWinTracks, cWinTeam,
      cWinBall, playerCenters, dictSet, centroid, scoreLoop, scoreCand, velocity,
      dictGet, distSq, scoreGtB, sqrtGtAux, scoreInit, threshPair])
    (fun i hi => by
      have h0 : i ≠ 0 := by omega
      simp only [cSeq, if_neg h0]
      rfl)

end FV
